import Mathlib

/-!
# Verification of the claude-spawn worktree tooling core

Shallow embedding of the core logic of the claude-spawn repository:
the porcelain worktree parser (`getWorktrees`), the branch enumerator
(`getExistingBranches`), the branch-name validator (`validateBranchName`),
the reconciliation logic (find-worktree-for-branch, partition by worktree
presence) and the command executor (`executeCommand`).

JavaScript strings are modelled as `List Char`; a JS string value used at
the API boundary is a Lean `String`, whose character list is obtained with
`String.data`.  Fallible subprocess execution is modelled with an explicit
outcome type; `null` becomes `Option.none`.
-/

/-- Character list of a string literal (used to state theorems readably). -/
def strL (s : String) : List Char := s.data

/-- The ASCII whitespace characters matched by a JavaScript regex class
for whitespace and by JS trimming.  (JS additionally matches some Unicode
space characters; the repository only feeds git output through these
functions, so the ASCII model is faithful on all relevant inputs.) -/
def jsWs (c : Char) : Bool :=
  c = ' ' || c = '\t' || c = '\n' || c = '\r' || c = '\x0b' || c = '\x0c'

/-- Boolean prefix test on character lists (JS `String.prototype.startsWith`). -/
def isPrefixList : List Char → List Char → Bool
  | [], _ => true
  | _ :: _, [] => false
  | a :: as, b :: bs => a = b && isPrefixList as bs

/-- JS `String.prototype.trim` (ASCII whitespace model): drop whitespace
from both ends. -/
def trimCh (cs : List Char) : List Char :=
  ((cs.dropWhile jsWs).reverse.dropWhile jsWs).reverse

/-- JS `String.prototype.split` with a single-character separator:
every occurrence of the separator splits, empty pieces are kept
(so the empty input yields one empty piece). -/
def splitCh (sep : Char) : List Char → List (List Char)
  | [] => [[]]
  | c :: rest =>
    if c = sep then [] :: splitCh sep rest
    else
      match splitCh sep rest with
      | [] => [[c]]
      | l :: ls => (c :: l) :: ls

/-- The outcome of running an external command: either it exits
successfully with captured stdout, or it fails (non-zero exit or spawn
error).  This abstracts the `execSync` call in `executeCommand`. -/
inductive ExecOutcome where
  | success (out : String)
  | failure
  deriving DecidableEq

/-- Embedding of `executeCommand` from src/utils/git.js: returns the captured stdout on
success and swallows every failure into `null` (here `none`). -/
def executeCommand : ExecOutcome → Option String
  | .success out => some out
  | .failure => none

/-! ## The porcelain worktree parser (`getWorktrees`, src/utils/git.js) -/

/-- One worktree record, as built by `getWorktrees`.  A JS object field
that may be absent is an `Option`; the `path` field is tested for
truthiness in the source, and a missing path is indistinguishable there
from the empty string, so `path = []` models "no path yet". -/
structure Worktree where
  path : List Char := []
  head : Option (List Char) := none
  branch : Option (List Char) := none
  bare : Bool := false
  detached : Bool := false
  prunable : Bool := false
  deriving DecidableEq, Repr

/-- The characters of the line prefix matched by the parser branch for
worktree lines. -/
def kWorktreeSp : List Char := ['w', 'o', 'r', 'k', 't', 'r', 'e', 'e', ' ']

/-- The characters of the HEAD line prefix. -/
def kHEADSp : List Char := ['H', 'E', 'A', 'D', ' ']

/-- The characters of the branch line prefix. -/
def kBranchSp : List Char := ['b', 'r', 'a', 'n', 'c', 'h', ' ']

/-- The bare marker line. -/
def kBare : List Char := ['b', 'a', 'r', 'e']

/-- The detached marker prefix. -/
def kDetached : List Char := ['d', 'e', 't', 'a', 'c', 'h', 'e', 'd']

/-- The prunable marker line. -/
def kPrunable : List Char := ['p', 'r', 'u', 'n', 'a', 'b', 'l', 'e']

/-- Handling of one non-blank, non-`worktree` line of the porcelain
output: the `else if` chain of the loop body in `getWorktrees` for the
HEAD/branch/bare/detached/prunable cases; an unrecognized line leaves the
accumulator unchanged (the loop has no final `else`). -/
def stepField (cur : Worktree) (l : List Char) : Worktree :=
  if isPrefixList kHEADSp l then { cur with head := some (l.drop 5) }
  else if isPrefixList kBranchSp l then { cur with branch := some (l.drop 7) }
  else if l = kBare then { cur with bare := true }
  else if isPrefixList kDetached l then { cur with detached := true }
  else if l = kPrunable then { cur with prunable := true }
  else cur

/-- The main loop of `getWorktrees`: threads the current accumulator and
the output list through the lines.  The blank-line case is dispatched
before the field cases here; in the source it is tested last, but a blank
line matches none of the field patterns, so the dispatch order is
equivalent.  A push happens only when the accumulated `path` is truthy
(non-empty). -/
def runLines : List (List Char) → Worktree → List Worktree → Worktree × List Worktree
  | [], cur, out => (cur, out)
  | l :: ls, cur, out =>
    if isPrefixList kWorktreeSp l then
      runLines ls { path := l.drop 9 } (if cur.path = [] then out else out ++ [cur])
    else if l = [] then
      if cur.path = [] then runLines ls cur out
      else runLines ls {} (out ++ [cur])
    else
      runLines ls (stepField cur l) out

/-- The final flush after the loop: push the pending accumulator if its
path is truthy. -/
def flushRun (st : Worktree × List Worktree) : List Worktree :=
  if st.1.path = [] then st.2 else st.2 ++ [st.1]

/-- The parser `getWorktrees` applied to an already-split list of lines. -/
def getWorktreesLines (lines : List (List Char)) : List Worktree :=
  flushRun (runLines lines {} [])

/-- The parser `getWorktrees` applied to a non-falsy porcelain text:
`result.trim().split('\n')` followed by the parsing loop. -/
def getWorktreesStr (s : String) : List Worktree :=
  getWorktreesLines (splitCh '\n' (trimCh s.data))

/-- Embedding of `getWorktrees` from src/utils/git.js, as a function of the captured
command output (`none` models `null`; the `if (!result)` guard also
catches the empty string, which is falsy in JS). -/
def getWorktrees (result : Option String) : List Worktree :=
  match result with
  | none => []
  | some s => if s = "" then [] else getWorktreesStr s

/-! ## The branch enumerator (`getExistingBranches`, src/utils/git.js) -/

/-- First cleanup step of a raw branch line:
`branch.replace(/^\*?\s+/, '')` — an anchored match of an optional `*`
followed by at least one whitespace character is removed (the greedy
`\s+` removes the whole leading whitespace run); if the line does not
start that way it is unchanged. -/
def stripStarWs (cs : List Char) : List Char :=
  match cs with
  | '*' :: d :: rest => if jsWs d then (d :: rest).dropWhile jsWs else cs
  | c :: _ => if jsWs c then cs.dropWhile jsWs else cs
  | [] => []

/-- Third cleanup step: `cleanBranch.replace(/^[+-]\s+/, '')` — a leading
`+` or `-` followed by at least one whitespace character is removed,
together with the whole whitespace run. -/
def stripMarkWs (cs : List Char) : List Char :=
  match cs with
  | c :: d :: rest =>
    if (c = '+' || c = '-') && jsWs d then (d :: rest).dropWhile jsWs else cs
  | _ => cs

/-- The characters of the remote prefix stripped by the enumerator. -/
def kRemotesOrigin : List Char :=
  ['r', 'e', 'm', 'o', 't', 'e', 's', '/', 'o', 'r', 'i', 'g', 'i', 'n', '/']

/-- Fourth cleanup step: `cleanBranch.replace(/^remotes\/origin\//, '')`. -/
def stripRemotes (cs : List Char) : List Char :=
  if isPrefixList kRemotesOrigin cs then cs.drop 15 else cs

/-- The per-line normalization of `getExistingBranches`: strip the current
branch marker, trim, strip `+`/`-` markers, strip the remote prefix. -/
def cleanBranchLine (cs : List Char) : List Char :=
  stripRemotes (stripMarkWs (trimCh (stripStarWs cs)))

/-- JS keep-first deduplication
`filter((branch, index, self) => self.indexOf(branch) === index)`:
an element is kept iff it has not occurred before. -/
def dedupGo {α : Type} [DecidableEq α] (seen : List α) : List α → List α
  | [] => []
  | x :: rest => if x ∈ seen then dedupGo seen rest else x :: dedupGo (seen ++ [x]) rest

/-- The enumerator `getExistingBranches` applied to a non-falsy `git branch -a` text. -/
def getExistingBranchesStr (s : String) : List String :=
  (dedupGo []
      (((splitCh '\n' s.data).map cleanBranchLine).filter (fun b => !b.isEmpty))).map
    (fun b => String.mk b)

/-- Embedding of `getExistingBranches` from src/utils/git.js as a function of the
captured command output (falsy results — `null` or the empty string —
yield the empty list). -/
def getExistingBranches (result : Option String) : List String :=
  match result with
  | none => []
  | some s => if s = "" then [] else getExistingBranchesStr s


/-! ## The branch name validator (`validateBranchName`, src/utils/git.js) -/

/-- Result of `validateBranchName`: the JS function returns `true` on
success and a message string on failure. -/
inductive VRes where
  | ok
  | err (msg : String)
  deriving DecidableEq, Repr

/-- A character matched by the class `[\s~^:?*[\\]` of the validator's
`invalidChars` regex. -/
def invalidCharB (c : Char) : Bool :=
  jsWs c || c = '~' || c = '^' || c = ':' || c = '?' || c = '*' || c = '[' || c = '\\'

/-- JS `String.prototype.startsWith` with a one-character prefix. -/
def startsWithCh (c : Char) : List Char → Bool
  | [] => false
  | d :: _ => d = c

/-- JS `String.prototype.endsWith`. -/
def endsWithL (suf cs : List Char) : Bool :=
  isPrefixList suf.reverse cs.reverse

/-- JS `String.prototype.includes`. -/
def containsSub (sub : List Char) : List Char → Bool
  | [] => sub.isEmpty
  | c :: rest => isPrefixList sub (c :: rest) || containsSub sub rest

/-- Embedding of `validateBranchName` from src/utils/git.js.  (`'\x7b'` is the opening
curly brace of the checked substring.) -/
def validateBranchName (name : String) : VRes :=
  let n := name.data
  if n.any invalidCharB then .err "Branch name contains invalid characters"
  else if startsWithCh '-' n || startsWithCh '+' n ||
      endsWithL ['.'] n || endsWithL ['.', 'l', 'o', 'c', 'k'] n then
    .err "Invalid branch name format"
  else if containsSub ['.', '.'] n || containsSub ['@', '\x7b'] n || n.contains '\\' then
    .err "Branch name contains invalid sequences"
  else .ok

/-! ## Reconciliation logic -/

/-- The characters of the `refs/heads/` ref prefix. -/
def kRefsHeads : List Char := ['r', 'e', 'f', 's', '/', 'h', 'e', 'a', 'd', 's', '/']

/-- JS `String.prototype.replace` with a plain-string pattern: only the
first occurrence of `pat` is replaced by `repl`; a missing pattern leaves
the string unchanged. -/
def replaceFirst (pat repl : List Char) : List Char → List Char
  | [] => if pat.isEmpty then repl else []
  | c :: rest =>
    if isPrefixList pat (c :: rest) then repl ++ (c :: rest).drop pat.length
    else c :: replaceFirst pat repl rest

/-- Node's `path.basename` (POSIX): the last non-empty slash-separated
segment; all-slash paths give `/`, the empty path gives the empty
string. -/
def basenameCh (p : List Char) : List Char :=
  match ((splitCh '/' p).filter (fun seg => !seg.isEmpty)).getLast? with
  | some seg => seg
  | none => if p.isEmpty then [] else ['/']

/-- The matching predicate of the `worktrees.find(...)` callback in
`removeWorktree` (src/remove.js): ref equality after stripping
`refs/heads/` (a `null` branch compares unequal to the branch name), or
the `<repoName>-<branchName>` naming fallback on the path's basename. -/
def wtMatches (repoName branchName : List Char) (wt : Worktree) : Bool :=
  (match wt.branch with
   | some b => replaceFirst kRefsHeads [] b == branchName
   | none => false) ||
  basenameCh wt.path == repoName ++ '-' :: branchName

/-- Find-worktree-for-branch: the `worktrees.find(...)` call of
`removeWorktree` (src/remove.js), with `repoName = path.basename(gitRoot)`. -/
def findWorktreeForBranch (branchName : List Char) (wts : List Worktree)
    (repoRoot : List Char) : Option Worktree :=
  wts.find? (wtMatches (basenameCh repoRoot) branchName)

/-- Embedding of `worktrees.map((wt) => wt.branch).filter(Boolean)`: the branch refs of
the worktree records; `filter(Boolean)` drops both absent branches and the
(falsy) empty string. -/
def worktreeBranchRefs (wts : List Worktree) : List (List Char) :=
  (wts.map Worktree.branch).filterMap
    (fun ob => match ob with
      | some b => if b.isEmpty then none else some b
      | none => none)

/-- The worktree-less partition built by `interactiveMode` in src/spawn.js:
branches kept iff no worktree record carries `refs/heads/<branch>`. -/
def branchesWithoutWorktreesSpawn (branches : List (List Char))
    (wts : List Worktree) : List (List Char) :=
  branches.filter (fun b => !(worktreeBranchRefs wts).contains (kRefsHeads ++ b))

/-- The characters of the branch name main. -/
def kMain : List Char := ['m', 'a', 'i', 'n']

/-- The characters of the branch name master. -/
def kMaster : List Char := ['m', 'a', 's', 't', 'e', 'r']

/-- The worktree-less partition built by `interactiveRemove` in
src/remove.js: additionally excludes `main` and `master`. -/
def branchesWithoutWorktreesRemove (branches : List (List Char))
    (wts : List Worktree) : List (List Char) :=
  branches.filter
    (fun b => !(worktreeBranchRefs wts).contains (kRefsHeads ++ b) &&
      b != kMain && b != kMaster)

/-! ## The duplicated parser in src/spawn.js

src/spawn.js contains its own textual copy of `getWorktrees`; it is
embedded separately here so that the behavioural equivalence of the two
copies is a theorem about two definitions rather than a tautology. -/

namespace SpawnJs

/-- The HEAD/branch/bare/detached/prunable line handling of the
`getWorktrees` copy in src/spawn.js. -/
def stepField (cur : Worktree) (l : List Char) : Worktree :=
  if isPrefixList kHEADSp l then { cur with head := some (l.drop 5) }
  else if isPrefixList kBranchSp l then { cur with branch := some (l.drop 7) }
  else if l = kBare then { cur with bare := true }
  else if isPrefixList kDetached l then { cur with detached := true }
  else if l = kPrunable then { cur with prunable := true }
  else cur

/-- The main loop of the `getWorktrees` copy in src/spawn.js. -/
def runLines : List (List Char) → Worktree → List Worktree → Worktree × List Worktree
  | [], cur, out => (cur, out)
  | l :: ls, cur, out =>
    if isPrefixList kWorktreeSp l then
      runLines ls { path := l.drop 9 } (if cur.path = [] then out else out ++ [cur])
    else if l = [] then
      if cur.path = [] then runLines ls cur out
      else runLines ls {} (out ++ [cur])
    else
      runLines ls (stepField cur l) out

/-- The final flush of the src/spawn.js copy. -/
def flushRun (st : Worktree × List Worktree) : List Worktree :=
  if st.1.path = [] then st.2 else st.2 ++ [st.1]

/-- The src/spawn.js copy of the parser, applied to split lines. -/
def getWorktreesLines (lines : List (List Char)) : List Worktree :=
  flushRun (runLines lines {} [])

/-- The src/spawn.js copy of the parser, applied to a non-falsy text. -/
def getWorktreesStr (s : String) : List Worktree :=
  getWorktreesLines (splitCh '\n' (trimCh s.data))

/-- Embedding of `getWorktrees` from src/spawn.js. -/
def getWorktrees (result : Option String) : List Worktree :=
  match result with
  | none => []
  | some s => if s = "" then [] else getWorktreesStr s

end SpawnJs

/-! ## Stanza structure of porcelain input -/

/-- A well-formed porcelain stanza: a `worktree <path>` first line with a
non-empty path, followed by lines that are neither blank nor further
`worktree ` lines. -/
def wfStanza (st : List (List Char)) : Bool :=
  match st with
  | [] => false
  | l :: fs =>
    isPrefixList kWorktreeSp l && !(l.drop 9).isEmpty &&
      fs.all (fun f => !f.isEmpty && !isPrefixList kWorktreeSp f)

/-- The path announced by a stanza's first line. -/
def stanzaPath (st : List (List Char)) : List Char :=
  match st with
  | [] => []
  | l :: _ => l.drop 9

/-- The record the parser builds from one stanza: the path of the first
line, refined by the field lines in order. -/
def recordOfStanza (st : List (List Char)) : Worktree :=
  match st with
  | [] => {}
  | l :: fs => List.foldl stepField { path := l.drop 9 } fs

/-- A porcelain field line: one of the five line forms the parser's
non-`worktree` branches recognize. -/
def isFieldLine (l : List Char) : Bool :=
  isPrefixList kHEADSp l || isPrefixList kBranchSp l || l == kBare ||
    isPrefixList kDetached l || l == kPrunable

/-- A field line that sets one of the three mutually exclusive markers
(branch ref, bare, detached). -/
def exclFieldLine (f : List Char) : Bool :=
  isPrefixList kBranchSp f || f == kBare || isPrefixList kDetached f

/-- A stanza as git emits it: well-formed, and with at most one
branch/bare/detached line. -/
def wfStanzaExcl (st : List (List Char)) : Bool :=
  wfStanza st &&
    (match st with
     | [] => false
     | _ :: fs => decide ((fs.filter exclFieldLine).length ≤ 1))

/-- The mutual-exclusion invariant of the spec's data model: at most one
of (branch present, detached, bare) holds — i.e. exactly one of the four
cases (branch set, detached, bare, none of the three). -/
def mutexOK (r : Worktree) : Bool :=
  !(r.branch.isSome && r.detached) && !(r.branch.isSome && r.bare) &&
    !(r.detached && r.bare)

/-- Join a list of output names back into one newline-separated text
(used to feed an enumerator's output back through the enumerator). -/
def joinNl (names : List String) : String :=
  ⟨List.intercalate ['\n'] (names.map String.data)⟩

/-! ## Helper lemmas about the parser -/

theorem isPrefixList_head {a : Char} {p l : List Char}
    (h : isPrefixList (a :: p) l = true) : ∃ t, l = a :: t ∧ isPrefixList p t = true := by
  cases l with
  | nil => simp [isPrefixList] at h
  | cons c cs =>
    simp only [isPrefixList, Bool.and_eq_true, decide_eq_true_eq] at h
    exact ⟨cs, by rw [h.1], h.2⟩

theorem isPrefixList_head_ne {a b : Char} {p q l : List Char} (hab : b ≠ a)
    (h : isPrefixList (a :: p) l = true) : isPrefixList (b :: q) l = false := by
  obtain ⟨t, rfl, -⟩ := isPrefixList_head h
  simp only [isPrefixList, Bool.and_eq_false_iff, decide_eq_false_iff_not]
  exact Or.inl hab

theorem stepField_path (cur : Worktree) (l : List Char) :
    (stepField cur l).path = cur.path := by
  unfold stepField
  repeat' split
  all_goals rfl

theorem foldl_stepField_path (fs : List (List Char)) :
    ∀ cur : Worktree, (List.foldl stepField cur fs).path = cur.path := by
  induction fs with
  | nil => intro cur; rfl
  | cons f fs ih => intro cur; rw [List.foldl_cons, ih, stepField_path]

theorem recordOfStanza_path (st : List (List Char)) :
    (recordOfStanza st).path = stanzaPath st := by
  cases st with
  | nil => rfl
  | cons l fs => simp [recordOfStanza, stanzaPath, foldl_stepField_path]

theorem runLines_append (xs ys : List (List Char)) :
    ∀ cur out, runLines (xs ++ ys) cur out =
      runLines ys (runLines xs cur out).1 (runLines xs cur out).2 := by
  induction xs with
  | nil => intro cur out; rfl
  | cons l ls ih =>
    intro cur out
    simp only [List.cons_append, runLines]
    repeat' split
    all_goals exact ih _ _

/-- Processing a run of non-blank, non-`worktree` lines folds `stepField`
over the accumulator and pushes nothing. -/
theorem runLines_fields (fs : List (List Char))
    (hfs : ∀ f ∈ fs, f ≠ [] ∧ isPrefixList kWorktreeSp f = false) :
    ∀ cur out, runLines fs cur out = (List.foldl stepField cur fs, out) := by
  induction fs with
  | nil => intro cur out; rfl
  | cons f fs ih =>
    intro cur out
    obtain ⟨hne, hwt⟩ := hfs f (List.mem_cons_self f fs)
    have hrest : ∀ g ∈ fs, g ≠ [] ∧ isPrefixList kWorktreeSp g = false :=
      fun g hg => hfs g (List.mem_cons_of_mem f hg)
    simp only [runLines, hwt, Bool.false_eq_true, if_false, hne, if_neg hne,
      List.foldl_cons]
    exact ih hrest _ _

/-- Running a single well-formed stanza from a fresh accumulator yields
that stanza's record as the pending accumulator and pushes nothing. -/
theorem runLines_stanza (st : List (List Char)) (hst : wfStanza st = true) :
    ∀ out, runLines st {} out = (recordOfStanza st, out) := by
  intro out
  cases st with
  | nil => simp [wfStanza] at hst
  | cons l fs =>
    simp only [wfStanza, Bool.and_eq_true, List.all_eq_true] at hst
    obtain ⟨⟨hwt, -⟩, hfs⟩ := hst
    have hfs2 : ∀ f ∈ fs, f ≠ [] ∧ isPrefixList kWorktreeSp f = false := by
      intro f hf
      have := hfs f hf
      simp only [Bool.and_eq_true, Bool.not_eq_true'] at this
      exact ⟨fun hn => by simp [hn] at this, this.2⟩
    simp only [runLines, hwt, if_true, recordOfStanza]
    show runLines fs { path := l.drop 9 } out = _
    exact runLines_fields fs hfs2 _ _

theorem intercalate_nil_s {α : Type} (sep : List α) :
    List.intercalate sep ([] : List (List α)) = [] := rfl

theorem intercalate_singleton_s {α : Type} (sep : List α) (x : List α) :
    List.intercalate sep [x] = x := by
  simp [List.intercalate, List.intersperse]

theorem intercalate_cons2_s {α : Type} (sep : List α) (x y : List α) (zs : List (List α)) :
    List.intercalate sep (x :: y :: zs) = x ++ sep ++ List.intercalate sep (y :: zs) := by
  simp [List.intercalate, List.intersperse]

/-- The main stanza theorem: running the blank-line-separated stanzas and
flushing yields one record per stanza, in order, appended to whatever was
already pushed. -/
theorem flushRun_stanzas (stanzas : List (List (List Char)))
    (h : ∀ st ∈ stanzas, wfStanza st = true) :
    ∀ out, flushRun (runLines (List.intercalate [[]] stanzas) {} out) =
      out ++ stanzas.map recordOfStanza := by
  induction stanzas with
  | nil => intro out; simp [intercalate_nil_s, runLines, flushRun, Worktree.mk]
  | cons st rest ih =>
    intro out
    have hst : wfStanza st = true := h st (List.mem_cons_self st rest)
    have hpath : (recordOfStanza st).path ≠ [] := by
      rw [recordOfStanza_path]
      cases st with
      | nil => simp [wfStanza] at hst
      | cons l fs =>
        simp only [wfStanza, Bool.and_eq_true, Bool.not_eq_true',
          List.isEmpty_eq_false] at hst
        exact hst.1.2
    cases rest with
    | nil =>
      rw [intercalate_singleton_s, runLines_stanza st hst out]
      simp [flushRun, hpath]
    | cons st2 rest2 =>
      rw [intercalate_cons2_s, List.append_assoc, runLines_append,
        runLines_stanza st hst out]
      have hblank : runLines ([[]] ++ List.intercalate [[]] (st2 :: rest2))
          (recordOfStanza st) out =
          runLines (List.intercalate [[]] (st2 :: rest2)) {}
            (out ++ [recordOfStanza st]) := by
        have : isPrefixList kWorktreeSp [] = false := rfl
        simp only [List.cons_append, List.nil_append, runLines, this,
          Bool.false_eq_true, if_false, if_neg hpath]
        simp [hpath]
      rw [hblank,
        ih (fun s hs => h s (List.mem_cons_of_mem st hs)) (out ++ [recordOfStanza st])]
      simp

/-- A trailing blank line never changes the parse: the final flush and the
blank-line flush agree. -/
theorem getWorktreesLines_append_blank (lines : List (List Char)) :
    getWorktreesLines (lines ++ [[]]) = getWorktreesLines lines := by
  unfold getWorktreesLines
  rw [runLines_append]
  obtain ⟨cur, out⟩ := runLines lines {} []
  have hw : isPrefixList kWorktreeSp ([] : List Char) = false := rfl
  by_cases hp : cur.path = [] <;>
    simp [runLines, flushRun, hp, hw]

theorem dropWhile_append_of_eq_nil {α : Type} (p : α → Bool) (l₁ l₂ : List α)
    (h : l₁.dropWhile p = []) : (l₁ ++ l₂).dropWhile p = l₂.dropWhile p := by
  induction l₁ with
  | nil => rfl
  | cons a as ih =>
    rw [List.dropWhile_cons] at h
    by_cases hp : p a = true
    · simp only [hp, if_true] at h
      simp only [List.cons_append, List.dropWhile_cons, hp, if_true]
      exact ih h
    · simp [hp] at h

theorem dropWhile_append_of_ne_nil {α : Type} (p : α → Bool) (l₁ l₂ : List α)
    (h : l₁.dropWhile p ≠ []) : (l₁ ++ l₂).dropWhile p = l₁.dropWhile p ++ l₂ := by
  induction l₁ with
  | nil => simp at h
  | cons a as ih =>
    rw [List.dropWhile_cons] at h
    by_cases hp : p a = true
    · simp only [hp, if_true] at h
      simp only [List.cons_append, List.dropWhile_cons, hp, if_true]
      exact ih h
    · simp only [hp, if_false, Bool.false_eq_true] at h
      simp [List.cons_append, List.dropWhile_cons, hp]

/-- Appending a newline to a text does not change its JS trim. -/
theorem trimCh_append_newline (cs : List Char) :
    trimCh (cs ++ ['\n']) = trimCh cs := by
  unfold trimCh
  by_cases h : cs.dropWhile jsWs = []
  · rw [dropWhile_append_of_eq_nil jsWs cs ['\n'] h, h]
    rfl
  · rw [dropWhile_append_of_ne_nil jsWs cs ['\n'] h]
    simp only [List.reverse_append, List.reverse_cons, List.reverse_nil,
      List.nil_append, List.singleton_append, List.dropWhile_cons]
    rfl


theorem string_data_append (s t : String) : (s ++ t).data = s.data ++ t.data := rfl

theorem getWorktreesStr_append_newline (s : String) :
    getWorktreesStr (s ++ "\n") = getWorktreesStr s := by
  unfold getWorktreesStr
  rw [string_data_append]
  show getWorktreesLines (splitCh '\n' (trimCh (s.data ++ ['\n']))) = _
  rw [trimCh_append_newline]

/-- C1.  For every well-formed porcelain input of N stanzas separated by
blank lines, the parser returns exactly N records in input order (one per
stanza, carrying that stanza's path); a trailing blank line — at the line
level as well as a trailing newline at the text level — never changes the
result; and on the concrete two-stanza input the parser returns exactly
the two expected records. -/
theorem c1_porcelain_stanza_parse :
    (∀ stanzas : List (List (List Char)), (∀ st ∈ stanzas, wfStanza st = true) →
      getWorktreesLines (List.intercalate [[]] stanzas) = stanzas.map recordOfStanza ∧
      (getWorktreesLines (List.intercalate [[]] stanzas)).map Worktree.path =
        stanzas.map stanzaPath ∧
      getWorktreesLines (List.intercalate [[]] stanzas ++ [[]]) =
        getWorktreesLines (List.intercalate [[]] stanzas)) ∧
    (∀ s : String, getWorktrees (some (s ++ "\n")) = getWorktrees (some s)) ∧
    getWorktrees (some "worktree /a\nbranch refs/heads/main\n\nworktree /b\ndetached\n\n") =
      [{ path := strL "/a", branch := some (strL "refs/heads/main") },
       { path := strL "/b", detached := true }] := by
  refine ⟨?_, ?_, by decide⟩
  · intro stanzas h
    have hmain : getWorktreesLines (List.intercalate [[]] stanzas) =
        stanzas.map recordOfStanza := by
      unfold getWorktreesLines
      have := flushRun_stanzas stanzas h []
      simpa using this
    refine ⟨hmain, ?_, getWorktreesLines_append_blank _⟩
    rw [hmain, List.map_map]
    exact List.map_congr_left fun st _ => recordOfStanza_path st
  · intro s
    by_cases hs : s = ""
    · subst hs; decide
    · have hne : s ++ "\n" ≠ "" := by
        intro hcon
        have : (s ++ "\n").data = ("" : String).data := congrArg String.data hcon
        rw [string_data_append] at this
        simp at this
      simp only [getWorktrees, if_neg hne, if_neg hs, getWorktreesStr_append_newline]

/-- Witness for C1: the two-stanza input of the claim, presented as
stanza line lists, parses to one record per stanza. -/
theorem c1_porcelain_stanza_parse_witness :
    getWorktreesLines
        (List.intercalate [[]]
          [[strL "worktree /a", strL "branch refs/heads/main"],
           [strL "worktree /b", strL "detached"]]) =
      [[strL "worktree /a", strL "branch refs/heads/main"],
       [strL "worktree /b", strL "detached"]].map recordOfStanza :=
  (c1_porcelain_stanza_parse.1
    [[strL "worktree /a", strL "branch refs/heads/main"],
     [strL "worktree /b", strL "detached"]] (by decide)).1

/-! ## Record paths are never empty (C9 machinery) -/

theorem runLines_paths (lines : List (List Char)) :
    ∀ cur out, (∀ r ∈ out, r.path ≠ []) →
      ∀ r ∈ (runLines lines cur out).2, r.path ≠ [] := by
  induction lines with
  | nil => intro cur out h; exact h
  | cons l ls ih =>
    intro cur out h
    simp only [runLines]
    split
    · apply ih
      split
      · exact h
      next hcur =>
        intro r hr
        rcases List.mem_append.mp hr with hr2 | hr2
        · exact h r hr2
        · rw [List.mem_singleton] at hr2; subst hr2; exact hcur
    · split
      · split
        · exact ih cur out h
        next hcur =>
          apply ih
          intro r hr
          rcases List.mem_append.mp hr with hr2 | hr2
          · exact h r hr2
          · rw [List.mem_singleton] at hr2; subst hr2; exact hcur
      · exact ih _ out h

theorem flushRun_paths (st : Worktree × List Worktree)
    (h : ∀ r ∈ st.2, r.path ≠ []) : ∀ r ∈ flushRun st, r.path ≠ [] := by
  unfold flushRun
  split
  · exact h
  next hcur =>
    intro r hr
    rcases List.mem_append.mp hr with hr2 | hr2
    · exact h r hr2
    · rw [List.mem_singleton] at hr2; subst hr2; exact hcur

/-- A pending accumulator without a path never influences the final
record list: only its (empty) path can be observed by later pushes. -/
theorem flushRun_runLines_acc_irrelevant (lines : List (List Char)) :
    ∀ (cur cur' : Worktree) out, cur.path = [] → cur'.path = [] →
      flushRun (runLines lines cur out) = flushRun (runLines lines cur' out) := by
  induction lines with
  | nil =>
    intro cur cur' out h h'
    simp [runLines, flushRun, h, h']
  | cons l ls ih =>
    intro cur cur' out h h'
    simp only [runLines, h, h', if_true, if_pos]
    split
    · rfl
    · split
      · exact ih cur cur' out h h'
      · apply ih
        · rw [stepField_path]; exact h
        · rw [stepField_path]; exact h'

theorem fieldLine_props {l : List Char} (h : isFieldLine l = true) :
    l ≠ [] ∧ isPrefixList kWorktreeSp l = false := by
  simp only [isFieldLine, Bool.or_eq_true, beq_iff_eq] at h
  rcases h with ((((h | h) | h) | h) | h)
  · have h2 : isPrefixList ('H' :: ['E', 'A', 'D', ' ']) l = true := h
    obtain ⟨t, rfl, -⟩ := isPrefixList_head h2
    exact ⟨by simp, isPrefixList_head_ne (by decide) h2⟩
  · have h2 : isPrefixList ('b' :: ['r', 'a', 'n', 'c', 'h', ' ']) l = true := h
    obtain ⟨t, rfl, -⟩ := isPrefixList_head h2
    exact ⟨by simp, isPrefixList_head_ne (by decide) h2⟩
  · subst h; exact ⟨by decide, by decide⟩
  · have h2 : isPrefixList ('d' :: ['e', 't', 'a', 'c', 'h', 'e', 'd']) l = true := h
    obtain ⟨t, rfl, -⟩ := isPrefixList_head h2
    exact ⟨by simp, isPrefixList_head_ne (by decide) h2⟩
  · subst h; exact ⟨by decide, by decide⟩

theorem getWorktreesLines_drop_leading_fields (pre rest : List (List Char))
    (hpre : ∀ l ∈ pre, isFieldLine l = true) :
    getWorktreesLines (pre ++ rest) = getWorktreesLines rest := by
  unfold getWorktreesLines
  rw [runLines_append,
    runLines_fields pre (fun f hf => fieldLine_props (hpre f hf))]
  exact flushRun_runLines_acc_irrelevant rest _ _ []
    (by rw [foldl_stepField_path]) rfl

/-- C9.  Every record the porcelain parser returns has a non-empty path
(so a `worktree ` line with an empty remainder never produces a record),
and field lines appearing before the first `worktree ` line never produce
a record: their values are discarded and parsing proceeds as if they were
absent. -/
theorem c9_records_have_nonempty_paths :
    (∀ (result : Option String) (r : Worktree), r ∈ getWorktrees result → r.path ≠ []) ∧
    (∀ pre rest : List (List Char), (∀ l ∈ pre, isFieldLine l = true) →
      getWorktreesLines (pre ++ rest) = getWorktreesLines rest) := by
  constructor
  · intro result r hr
    match result with
    | none => cases hr
    | some s =>
      simp only [getWorktrees] at hr
      split at hr
      · cases hr
      · unfold getWorktreesStr getWorktreesLines at hr
        exact flushRun_paths _ (runLines_paths _ _ _ (by intro x hx; cases hx)) r hr
  · exact getWorktreesLines_drop_leading_fields

/-- Witness for C9 at concrete inputs: the single record of
`worktree /a` has a non-empty path, and a leading `HEAD` line before the
first `worktree` line is discarded. -/
theorem c9_records_have_nonempty_paths_witness :
    (({ path := strL "/a" } : Worktree).path ≠ []) ∧
    getWorktreesLines [strL "HEAD deadbeef", strL "worktree /b"] =
      getWorktreesLines [strL "worktree /b"] :=
  ⟨c9_records_have_nonempty_paths.1 (some "worktree /a") _ (by decide),
   c9_records_have_nonempty_paths.2 [strL "HEAD deadbeef"] [strL "worktree /b"] (by decide)⟩

/-! ## Equivalence of the two parser copies (C10 machinery) -/

theorem spawn_stepField_eq : SpawnJs.stepField = stepField := rfl

theorem spawn_runLines_eq (lines : List (List Char)) :
    ∀ cur out, SpawnJs.runLines lines cur out = runLines lines cur out := by
  induction lines with
  | nil => intro cur out; rfl
  | cons l ls ih =>
    intro cur out
    simp only [SpawnJs.runLines, runLines, spawn_stepField_eq, ih]

/-- C10.  The `getWorktrees` defined in src/spawn.js and the
`getWorktrees` defined in src/utils/git.js compute identical record
sequences on every input. -/
theorem c10_parser_copies_equivalent :
    ∀ result : Option String, SpawnJs.getWorktrees result = getWorktrees result := by
  intro result
  match result with
  | none => rfl
  | some s =>
    simp only [SpawnJs.getWorktrees, getWorktrees]
    split
    · rfl
    · show SpawnJs.getWorktreesStr s = getWorktreesStr s
      unfold SpawnJs.getWorktreesStr getWorktreesStr SpawnJs.getWorktreesLines
        getWorktreesLines SpawnJs.flushRun flushRun
      rw [spawn_runLines_eq]

/-! ## Mutual exclusion of branch/bare/detached (C6 machinery) -/

theorem two_mem_length_le_one {α : Type} {l : List α} {a b : α} (ha : a ∈ l)
    (hb : b ∈ l) (hab : a ≠ b) (h : l.length ≤ 1) : False := by
  cases l with
  | nil => cases ha
  | cons x xs =>
    cases xs with
    | nil =>
      rw [List.mem_singleton] at ha hb
      exact hab (ha.trans hb.symm)
    | cons y ys => simp at h

theorem prefix_head_ne_lists {a b : Char} {p q l1 l2 : List Char} (hab : a ≠ b)
    (h1 : isPrefixList (a :: p) l1 = true) (h2 : isPrefixList (b :: q) l2 = true) :
    l1 ≠ l2 := by
  obtain ⟨t1, rfl, -⟩ := isPrefixList_head h1
  obtain ⟨t2, rfl, -⟩ := isPrefixList_head h2
  intro hco
  injection hco with hh _
  exact hab hh

theorem stepField_branch_of_set {cur : Worktree} {l : List Char}
    (hb : isPrefixList kBranchSp l = true) :
    (stepField cur l).branch = some (l.drop 7) := by
  have h2 : isPrefixList ('b' :: ['r', 'a', 'n', 'c', 'h', ' ']) l = true := hb
  have hH : isPrefixList kHEADSp l = false := isPrefixList_head_ne (by decide) h2
  simp [stepField, hH, hb]

theorem stepField_branch_of_not {cur : Worktree} {l : List Char}
    (hb : isPrefixList kBranchSp l = false) :
    (stepField cur l).branch = cur.branch := by
  unfold stepField
  repeat' split
  all_goals first | rfl | simp_all

theorem stepField_bare_of_set {cur : Worktree} {l : List Char} (hb : l = kBare) :
    (stepField cur l).bare = true := by
  subst hb
  simp [stepField, show isPrefixList kHEADSp kBare = false from rfl,
    show isPrefixList kBranchSp kBare = false from rfl]

theorem stepField_bare_of_not {cur : Worktree} {l : List Char} (hb : l ≠ kBare) :
    (stepField cur l).bare = cur.bare := by
  unfold stepField
  repeat' split
  all_goals first | rfl | simp_all

theorem stepField_detached_of_set {cur : Worktree} {l : List Char}
    (hd : isPrefixList kDetached l = true) :
    (stepField cur l).detached = true := by
  have h2 : isPrefixList ('d' :: ['e', 't', 'a', 'c', 'h', 'e', 'd']) l = true := hd
  have hH : isPrefixList kHEADSp l = false := isPrefixList_head_ne (by decide) h2
  have hB : isPrefixList kBranchSp l = false := isPrefixList_head_ne (by decide) h2
  have hbare : l ≠ kBare := by
    obtain ⟨t, rfl, -⟩ := isPrefixList_head h2
    intro hco
    simp [kBare] at hco
  simp [stepField, hH, hB, hbare, hd]

theorem stepField_detached_of_not {cur : Worktree} {l : List Char}
    (hd : isPrefixList kDetached l = false) :
    (stepField cur l).detached = cur.detached := by
  unfold stepField
  repeat' split
  all_goals first | rfl | simp_all

theorem foldl_branch_isSome (fs : List (List Char)) :
    ∀ cur : Worktree, (List.foldl stepField cur fs).branch.isSome =
      (cur.branch.isSome || fs.any (fun f => isPrefixList kBranchSp f)) := by
  induction fs with
  | nil => intro cur; simp
  | cons f fs ih =>
    intro cur
    rw [List.foldl_cons, ih]
    by_cases hb : isPrefixList kBranchSp f = true
    · rw [stepField_branch_of_set hb]
      simp [hb]
    · rw [stepField_branch_of_not (Bool.eq_false_iff.mpr hb)]
      simp only [List.any_cons]
      rw [Bool.eq_false_iff.mpr hb]
      simp [Bool.or_assoc]

theorem foldl_bare (fs : List (List Char)) :
    ∀ cur : Worktree, (List.foldl stepField cur fs).bare =
      (cur.bare || fs.any (fun f => f == kBare)) := by
  induction fs with
  | nil => intro cur; simp
  | cons f fs ih =>
    intro cur
    rw [List.foldl_cons, ih]
    by_cases hb : f = kBare
    · rw [stepField_bare_of_set hb]
      simp [hb]
    · rw [stepField_bare_of_not hb]
      simp only [List.any_cons]
      rw [beq_eq_false_iff_ne.mpr hb]
      simp [Bool.or_assoc]

theorem foldl_detached (fs : List (List Char)) :
    ∀ cur : Worktree, (List.foldl stepField cur fs).detached =
      (cur.detached || fs.any (fun f => isPrefixList kDetached f)) := by
  induction fs with
  | nil => intro cur; simp
  | cons f fs ih =>
    intro cur
    rw [List.foldl_cons, ih]
    by_cases hd : isPrefixList kDetached f = true
    · rw [stepField_detached_of_set hd]
      simp [hd]
    · rw [stepField_detached_of_not (Bool.eq_false_iff.mpr hd)]
      simp only [List.any_cons]
      rw [Bool.eq_false_iff.mpr hd]
      simp [Bool.or_assoc]

theorem excl_pair {fs : List (List Char)}
    (hlen : (fs.filter exclFieldLine).length ≤ 1) {f1 f2 : List Char}
    (h1 : f1 ∈ fs) (h2 : f2 ∈ fs) (e1 : exclFieldLine f1 = true)
    (e2 : exclFieldLine f2 = true) (hne : f1 ≠ f2) : False :=
  two_mem_length_le_one (List.mem_filter.mpr ⟨h1, e1⟩)
    (List.mem_filter.mpr ⟨h2, e2⟩) hne hlen

/-- A stanza with at most one branch/bare/detached line produces a record
satisfying the mutual-exclusion invariant. -/
theorem recordOfStanza_mutex (st : List (List Char)) (h : wfStanzaExcl st = true) :
    mutexOK (recordOfStanza st) = true := by
  cases st with
  | nil => simp [wfStanzaExcl, wfStanza] at h
  | cons l fs =>
    have hlen : (fs.filter exclFieldLine).length ≤ 1 := by
      simp only [wfStanzaExcl, Bool.and_eq_true, decide_eq_true_eq] at h
      exact h.2
    unfold recordOfStanza mutexOK
    rw [foldl_branch_isSome, foldl_bare, foldl_detached]
    simp only [show ({ path := l.drop 9 } : Worktree).branch = none from rfl,
      show ({ path := l.drop 9 } : Worktree).bare = false from rfl,
      show ({ path := l.drop 9 } : Worktree).detached = false from rfl,
      Option.isSome_none, Bool.false_or]
    have hBD : ¬(fs.any (fun f => isPrefixList kBranchSp f) = true ∧
        fs.any (fun f => isPrefixList kDetached f) = true) := by
      rintro ⟨hx, hy⟩
      rw [List.any_eq_true] at hx hy
      obtain ⟨f1, hf1, hp1⟩ := hx
      obtain ⟨f2, hf2, hp2⟩ := hy
      exact excl_pair hlen hf1 hf2 (by simp [exclFieldLine, hp1])
        (by simp [exclFieldLine, hp2])
        (prefix_head_ne_lists (by decide)
          (show isPrefixList ('b' :: ['r', 'a', 'n', 'c', 'h', ' ']) f1 = true from hp1)
          (show isPrefixList ('d' :: ['e', 't', 'a', 'c', 'h', 'e', 'd']) f2 = true from hp2))
    have hBB : ¬(fs.any (fun f => isPrefixList kBranchSp f) = true ∧
        fs.any (fun f => f == kBare) = true) := by
      rintro ⟨hx, hy⟩
      rw [List.any_eq_true] at hx hy
      obtain ⟨f1, hf1, hp1⟩ := hx
      obtain ⟨f2, hf2, hp2⟩ := hy
      rw [beq_iff_eq] at hp2
      subst hp2
      have hne : f1 ≠ kBare := by
        intro hco
        rw [hco] at hp1
        exact absurd hp1 (by decide)
      exact excl_pair hlen hf1 hf2 (by simp [exclFieldLine, hp1])
        (by simp [exclFieldLine]) hne
    have hDB : ¬(fs.any (fun f => isPrefixList kDetached f) = true ∧
        fs.any (fun f => f == kBare) = true) := by
      rintro ⟨hx, hy⟩
      rw [List.any_eq_true] at hx hy
      obtain ⟨f1, hf1, hp1⟩ := hx
      obtain ⟨f2, hf2, hp2⟩ := hy
      rw [beq_iff_eq] at hp2
      subst hp2
      have hne : f1 ≠ kBare := by
        intro hco
        rw [hco] at hp1
        exact absurd hp1 (by decide)
      exact excl_pair hlen hf1 hf2 (by simp [exclFieldLine, hp1])
        (by simp [exclFieldLine]) hne
    cases hx : fs.any (fun f => isPrefixList kBranchSp f) <;>
      cases hy : fs.any (fun f => isPrefixList kDetached f) <;>
        cases hz : fs.any (fun f => f == kBare) <;>
          simp_all

/-- C6 counterexample: the parser accepts arbitrary text, and on a stanza
that carries both a `branch` line and a `detached` line it produces a
record violating the exactly-one-of invariant; likewise two stanzas may
repeat the same path. -/
theorem c6_counterexample :
    (getWorktreesStr "worktree /a\nbranch refs/heads/x\ndetached").all mutexOK = false ∧
    ¬ ((getWorktreesStr "worktree /a\n\nworktree /a").map Worktree.path).Nodup := by
  constructor
  · decide
  · decide

/-- C6 (amended).  For porcelain input whose stanzas each contain at most
one branch/bare/detached line and whose stanza paths are pairwise
distinct — which is what git emits — every parsed record satisfies the
mutual-exclusion invariant, and no two records share a path. -/
theorem c6_mutual_exclusion :
    ∀ stanzas : List (List (List Char)),
      (∀ st ∈ stanzas, wfStanzaExcl st = true) →
      (stanzas.map stanzaPath).Nodup →
      (∀ r ∈ getWorktreesLines (List.intercalate [[]] stanzas), mutexOK r = true) ∧
      ((getWorktreesLines (List.intercalate [[]] stanzas)).map Worktree.path).Nodup := by
  intro stanzas h hnd
  have hwf : ∀ st ∈ stanzas, wfStanza st = true := by
    intro st hst
    have := h st hst
    simp only [wfStanzaExcl, Bool.and_eq_true] at this
    exact this.1
  have hmain : getWorktreesLines (List.intercalate [[]] stanzas) =
      stanzas.map recordOfStanza := by
    unfold getWorktreesLines
    simpa using flushRun_stanzas stanzas hwf []
  constructor
  · intro r hr
    rw [hmain, List.mem_map] at hr
    obtain ⟨st, hst, rfl⟩ := hr
    exact recordOfStanza_mutex st (h st hst)
  · rw [hmain, List.map_map]
    have he : stanzas.map (Worktree.path ∘ recordOfStanza) = stanzas.map stanzaPath :=
      List.map_congr_left fun st _ => recordOfStanza_path st
    rw [he]
    exact hnd

/-- Witness for C6 at a concrete two-stanza input: the parsed record
paths are duplicate-free. -/
theorem c6_mutual_exclusion_witness :
    ((getWorktreesLines
        (List.intercalate [[]]
          [[strL "worktree /a", strL "branch refs/heads/x"],
           [strL "worktree /b", strL "detached"]])).map Worktree.path).Nodup :=
  (c6_mutual_exclusion
    [[strL "worktree /a", strL "branch refs/heads/x"],
     [strL "worktree /b", strL "detached"]] (by decide) (by decide)).2

/-! ## Find-worktree-for-branch (C2) -/

theorem find?_first {α : Type} (p : α → Bool) :
    ∀ (pre : List α) (w : α) (post : List α), p w = true →
      (∀ v ∈ pre, p v = false) → (pre ++ w :: post).find? p = some w := by
  intro pre
  induction pre with
  | nil =>
    intro w post hw _
    simp [List.find?_cons, hw]
  | cons v rest ih =>
    intro w post hw hpre
    rw [List.cons_append]
    have hv : p v = false := hpre v (List.mem_cons_self v rest)
    simp only [List.find?_cons, hv]
    exact ih w post hw (fun u hu => hpre u (List.mem_cons_of_mem v hu))

/-- C2 counterexample: with a worktree whose path matches the naming
fallback listed before a worktree whose branch ref matches exactly,
`removeWorktree`'s find returns the naming-fallback record, not the
ref-equality record — ref-equality is not preferred across records. -/
theorem c2_counterexample :
    findWorktreeForBranch (strL "feat")
        [{ path := strL "/p/repo-feat" },
         { path := strL "/x", branch := some (strL "refs/heads/feat") }]
        (strL "/r/repo") = some { path := strL "/p/repo-feat" } ∧
    ({ path := strL "/p/repo-feat" } : Worktree).branch = none ∧
    wtMatches (basenameCh (strL "/r/repo")) (strL "feat")
      { path := strL "/x", branch := some (strL "refs/heads/feat") } = true := by
  exact ⟨by decide, rfl, by decide⟩

/-- C2 (amended).  Find-worktree-for-branch returns absence exactly when
no record matches by stripped-ref equality or by the
`<repo>-<branch>` naming fallback; every returned record is a member
satisfying the disjunction; and the first matching record in sequence
order is returned (so an earlier naming-fallback match wins over a later
ref-equality match). -/
theorem c2_find_worktree :
    ∀ (branchName repoRoot : List Char) (wts : List Worktree),
      (findWorktreeForBranch branchName wts repoRoot = none ↔
        ∀ wt ∈ wts, wtMatches (basenameCh repoRoot) branchName wt = false) ∧
      (∀ wt, findWorktreeForBranch branchName wts repoRoot = some wt →
        wt ∈ wts ∧ wtMatches (basenameCh repoRoot) branchName wt = true) ∧
      (∀ pre wt post, wts = pre ++ wt :: post →
        wtMatches (basenameCh repoRoot) branchName wt = true →
        (∀ v ∈ pre, wtMatches (basenameCh repoRoot) branchName v = false) →
        findWorktreeForBranch branchName wts repoRoot = some wt) := by
  intro bn root wts
  refine ⟨?_, ?_, ?_⟩
  · unfold findWorktreeForBranch
    rw [List.find?_eq_none]
    constructor
    · intro h wt hwt
      exact Bool.eq_false_iff.mpr (h wt hwt)
    · intro h wt hwt
      rw [h wt hwt]
      simp
  · intro wt hf
    exact ⟨List.mem_of_find?_eq_some hf, List.find?_some hf⟩
  · intro pre wt post hw hmatch hpre
    subst hw
    exact find?_first _ pre wt post hmatch hpre

/-- Witness for C2 at a concrete input: the single ref-matching record is
found (first-match clause with an empty prefix). -/
theorem c2_find_worktree_witness :
    findWorktreeForBranch (strL "feat")
        [{ path := strL "/x", branch := some (strL "refs/heads/feat") }]
        (strL "/r/repo") =
      some { path := strL "/x", branch := some (strL "refs/heads/feat") } :=
  (c2_find_worktree (strL "feat") (strL "/r/repo") _).2.2 []
    { path := strL "/x", branch := some (strL "refs/heads/feat") } [] rfl
    (by decide) (by intro v hv; cases hv)

/-! ## Partition by worktree presence (C3) -/

/-- C3 counterexample: the partition built by `interactiveMode` in
src/spawn.js places `main` in the worktree-less output when no worktree
references it. -/
theorem c3_counterexample :
    branchesWithoutWorktreesSpawn [strL "main"] [] = [strL "main"] := by
  decide

/-- C3 (amended).  The partition built by `interactiveRemove` in
src/remove.js never places `main` or `master` in its worktree-less
output; the near-duplicate partition in src/spawn.js's `interactiveMode`
filters only by worktree presence and has no such exclusion. -/
theorem c3_remove_partition_excludes_main :
    ∀ (branches : List (List Char)) (wts : List Worktree),
      strL "main" ∉ branchesWithoutWorktreesRemove branches wts ∧
      strL "master" ∉ branchesWithoutWorktreesRemove branches wts := by
  intro branches wts
  refine ⟨?_, ?_⟩
  · intro hmem
    unfold branchesWithoutWorktreesRemove at hmem
    rw [List.mem_filter] at hmem
    have h2 := hmem.2
    have he : strL "main" = kMain := by decide
    rw [he] at h2
    simp at h2
  · intro hmem
    unfold branchesWithoutWorktreesRemove at hmem
    rw [List.mem_filter] at hmem
    have h2 := hmem.2
    have he : strL "master" = kMaster := by decide
    rw [he] at h2
    simp at h2

/-- Witness for C3 (amended) at a concrete input. -/
theorem c3_remove_partition_excludes_main_witness :
    strL "main" ∉ branchesWithoutWorktreesRemove [strL "main", strL "feat"] [] :=
  (c3_remove_partition_excludes_main [strL "main", strL "feat"] []).1

/-! ## Error collapse of the executor (C8) -/

/-- C8.  The command executor never propagates a failure: every outcome
maps to either the captured stdout or `none`; and both the porcelain
parser and the branch enumerator turn an absent result or empty input
into the empty sequence. -/
theorem c8_executor_failure_collapse :
    executeCommand .failure = none ∧
    (∀ s : String, executeCommand (.success s) = some s) ∧
    (∀ o : ExecOutcome, executeCommand o = none ∨ ∃ s, executeCommand o = some s) ∧
    getWorktrees none = [] ∧ getWorktrees (some "") = [] ∧
    getExistingBranches none = [] ∧ getExistingBranches (some "") = [] := by
  refine ⟨rfl, fun s => rfl, ?_, rfl, by decide, rfl, by decide⟩
  intro o
  cases o with
  | success s => exact Or.inr ⟨s, rfl⟩
  | failure => exact Or.inl rfl

/-! ## The enumerator on the concrete example (C7) -/

/-- C7.  On the four raw lines of the claim the enumerator strips the
`*` marker, the `+` marker and the `remotes/origin/` prefix, drops
nothing else, collapses the duplicate `feature-x` keeping its first
position, and returns the three names in first-occurrence order. -/
theorem c7_enumerator_example :
    getExistingBranches
        (some "* main\n  feature-x\n  remotes/origin/feature-x\n+ feature-y") =
      ["main", "feature-x", "feature-y"] := by
  decide

/-! ## The validator (C5) -/

/-- C5.  `validateBranchName` is total (never throws) and returns the
success sentinel exactly when none of the four rejection conditions
holds; the conditions are checked in order, the first match determining
the message; and on the claim's concrete examples it behaves as stated. -/
theorem c5_validate_branch_name :
    (∀ name : String, validateBranchName name = .ok ↔
      (name.data.any invalidCharB = false ∧
        (startsWithCh '-' name.data || startsWithCh '+' name.data ||
          endsWithL ['.'] name.data ||
          endsWithL ['.', 'l', 'o', 'c', 'k'] name.data) = false ∧
        (containsSub ['.', '.'] name.data || containsSub ['@', '\x7b'] name.data ||
          name.data.contains '\\') = false)) ∧
    (∀ name : String, name.data.any invalidCharB = true →
      validateBranchName name = .err "Branch name contains invalid characters") ∧
    (∀ name : String, name.data.any invalidCharB = false →
      (startsWithCh '-' name.data || startsWithCh '+' name.data ||
        endsWithL ['.'] name.data ||
        endsWithL ['.', 'l', 'o', 'c', 'k'] name.data) = true →
      validateBranchName name = .err "Invalid branch name format") ∧
    (∀ name : String, name.data.any invalidCharB = false →
      (startsWithCh '-' name.data || startsWithCh '+' name.data ||
        endsWithL ['.'] name.data ||
        endsWithL ['.', 'l', 'o', 'c', 'k'] name.data) = false →
      (containsSub ['.', '.'] name.data || containsSub ['@', '\x7b'] name.data ||
        name.data.contains '\\') = true →
      validateBranchName name = .err "Branch name contains invalid sequences") ∧
    validateBranchName "-bad" = .err "Invalid branch name format" ∧
    validateBranchName "name..x" = .err "Branch name contains invalid sequences" ∧
    validateBranchName "a~b" = .err "Branch name contains invalid characters" ∧
    validateBranchName "trailing." = .err "Invalid branch name format" ∧
    validateBranchName "lockfile.lock" = .err "Invalid branch name format" ∧
    validateBranchName "feature/login" = .ok ∧
    validateBranchName "fix-bug-123" = .ok := by
  refine ⟨?_, ?_, ?_, ?_, by decide, by decide, by decide, by decide, by decide,
    by decide, by decide⟩
  · intro name
    by_cases h1 : name.data.any invalidCharB = true
    · simp [validateBranchName, h1]
    · by_cases h2 : (startsWithCh '-' name.data || startsWithCh '+' name.data ||
          endsWithL ['.'] name.data ||
          endsWithL ['.', 'l', 'o', 'c', 'k'] name.data) = true
      · simp [validateBranchName, h1, h2]
      · by_cases h3 : (containsSub ['.', '.'] name.data ||
            containsSub ['@', '\x7b'] name.data || name.data.contains '\\') = true
        · simp [validateBranchName, h1, h2, h3]
        · simp [validateBranchName, h1, h2, h3]
  · intro name h1
    simp [validateBranchName, h1]
  · intro name h1 h2
    simp [validateBranchName, h1, h2]
  · intro name h1 h2 h3
    simp [validateBranchName, h1, h2]
    intro hc1 hc2
    have h4 := h3
    simp [hc1, hc2] at h4
    simpa using h4

/-- Witness for C5: the ordering clauses applied at concrete names. -/
theorem c5_validate_branch_name_witness :
    validateBranchName "x y" = .err "Branch name contains invalid characters" ∧
    validateBranchName "+plus" = .err "Invalid branch name format" ∧
    validateBranchName "a@\x7bb" = .err "Branch name contains invalid sequences" ∧
    validateBranchName "ok-name" = .ok :=
  ⟨c5_validate_branch_name.2.1 "x y" (by decide),
   c5_validate_branch_name.2.2.1 "+plus" (by decide) (by decide),
   c5_validate_branch_name.2.2.2.1 "a@\x7bb" (by decide) (by decide) (by decide),
   (c5_validate_branch_name.1 "ok-name").mpr ⟨by decide, by decide, by decide⟩⟩

/-! ## Enumerator machinery (C4) -/

theorem dedupGo_subset {α : Type} [DecidableEq α] :
    ∀ (l : List α) (seen : List α), ∀ x ∈ dedupGo seen l, x ∈ l := by
  intro l
  induction l with
  | nil => intro seen x hx; cases hx
  | cons y rest ih =>
    intro seen x hx
    unfold dedupGo at hx
    split at hx
    · exact List.mem_cons_of_mem y (ih seen x hx)
    · rcases List.mem_cons.mp hx with h | h
      · subst h; exact List.mem_cons_self x rest
      · exact List.mem_cons_of_mem y (ih (seen ++ [y]) x h)

theorem dedupGo_not_mem_seen {α : Type} [DecidableEq α] :
    ∀ (l : List α) (seen : List α), ∀ x ∈ dedupGo seen l, x ∉ seen := by
  intro l
  induction l with
  | nil => intro seen x hx; cases hx
  | cons y rest ih =>
    intro seen x hx
    unfold dedupGo at hx
    split at hx
    · exact ih seen x hx
    next hy =>
      rcases List.mem_cons.mp hx with h | h
      · subst h; exact hy
      · have := ih (seen ++ [y]) x h
        intro hco
        exact this (List.mem_append_left [y] hco)

theorem dedupGo_nodup {α : Type} [DecidableEq α] :
    ∀ (l : List α) (seen : List α), (dedupGo seen l).Nodup := by
  intro l
  induction l with
  | nil => intro seen; exact List.nodup_nil
  | cons y rest ih =>
    intro seen
    unfold dedupGo
    split
    · exact ih seen
    · refine List.nodup_cons.mpr ⟨?_, ih (seen ++ [y])⟩
      intro hco
      exact dedupGo_not_mem_seen rest (seen ++ [y]) y hco
        (List.mem_append_right seen (List.mem_singleton.mpr rfl))

theorem dedupGo_eq_self {α : Type} [DecidableEq α] :
    ∀ (l : List α) (seen : List α), l.Nodup → (∀ x ∈ l, x ∉ seen) →
      dedupGo seen l = l := by
  intro l
  induction l with
  | nil => intro seen _ _; rfl
  | cons y rest ih =>
    intro seen hnd hdisj
    unfold dedupGo
    rw [if_neg (hdisj y (List.mem_cons_self y rest))]
    congr 1
    apply ih (seen ++ [y]) (List.nodup_cons.mp hnd).2
    intro x hx hco
    rcases List.mem_append.mp hco with h | h
    · exact hdisj x (List.mem_cons_of_mem y hx) h
    · rw [List.mem_singleton] at h
      subst h
      exact (List.nodup_cons.mp hnd).1 hx

theorem splitCh_ne_nil (sep : Char) : ∀ cs, splitCh sep cs ≠ [] := by
  intro cs
  cases cs with
  | nil => simp [splitCh]
  | cons c rest =>
    unfold splitCh
    split
    · simp
    · split
      · simp
      · simp

theorem splitCh_no_sep (sep : Char) :
    ∀ cs, ∀ p ∈ splitCh sep cs, sep ∉ p := by
  intro cs
  induction cs with
  | nil =>
    intro p hp
    rw [show splitCh sep [] = [[]] from rfl, List.mem_singleton] at hp
    subst hp
    exact List.not_mem_nil sep
  | cons c rest ih =>
    intro p hp
    unfold splitCh at hp
    split at hp
    · rcases List.mem_cons.mp hp with h | h
      · subst h; exact List.not_mem_nil sep
      · exact ih p h
    next hc =>
      split at hp
      next hsp => exact absurd hsp (splitCh_ne_nil sep rest)
      next l ls hsp =>
        rcases List.mem_cons.mp hp with h | h
        · subst h
          intro hco
          rcases List.mem_cons.mp hco with h2 | h2
          · exact hc h2.symm
          · exact ih l (hsp ▸ List.mem_cons_self l ls) h2
        · exact ih p (hsp ▸ List.mem_cons_of_mem l h)

theorem splitCh_single (sep : Char) :
    ∀ p, sep ∉ p → splitCh sep p = [p] := by
  intro p
  induction p with
  | nil => intro _; rfl
  | cons c rest ih =>
    intro h
    have hc : ¬(c = sep) := fun hco => h (hco ▸ List.mem_cons_self c rest)
    have hrest := ih (fun hco => h (List.mem_cons_of_mem c hco))
    unfold splitCh
    rw [if_neg hc, hrest]

theorem splitCh_append_sep (sep : Char) :
    ∀ p q, sep ∉ p → splitCh sep (p ++ sep :: q) = p :: splitCh sep q := by
  intro p
  induction p with
  | nil =>
    intro q _
    show splitCh sep (sep :: q) = [] :: splitCh sep q
    unfold splitCh
    rw [if_pos rfl]
    cases q <;> rfl
  | cons c rest ih =>
    intro q h
    have hc : ¬(c = sep) := fun hco => h (hco ▸ List.mem_cons_self c rest)
    have hrest := ih q (fun hco => h (List.mem_cons_of_mem c hco))
    show splitCh sep (c :: (rest ++ sep :: q)) = (c :: rest) :: splitCh sep q
    unfold splitCh
    rw [if_neg hc, hrest]
    cases q <;> rfl

theorem splitCh_intercalate (sep : Char) :
    ∀ pieces, pieces ≠ [] → (∀ p ∈ pieces, sep ∉ p) →
      splitCh sep (List.intercalate [sep] pieces) = pieces := by
  intro pieces
  induction pieces with
  | nil => intro h _; exact absurd rfl h
  | cons p rest ih =>
    intro _ hall
    cases rest with
    | nil =>
      rw [intercalate_singleton_s]
      exact splitCh_single sep p (hall p (List.mem_cons_self p []))
    | cons q rest2 =>
      rw [intercalate_cons2_s]
      have : p ++ [sep] ++ List.intercalate [sep] (q :: rest2) =
          p ++ sep :: List.intercalate [sep] (q :: rest2) := by
        rw [List.append_assoc]
        rfl
      rw [this,
        splitCh_append_sep sep p _ (hall p (List.mem_cons_self p (q :: rest2))),
        ih (by simp) (fun x hx => hall x (List.mem_cons_of_mem p hx))]

theorem mem_stripStarWs {c : Char} {cs : List Char} (h : c ∈ stripStarWs cs) :
    c ∈ cs := by
  unfold stripStarWs at h
  split at h
  · split at h
    · exact List.mem_cons_of_mem _ ((List.dropWhile_sublist _).subset h)
    · exact h
  · split at h
    · exact (List.dropWhile_sublist _).subset h
    · exact h
  · exact h

theorem mem_stripMarkWs {c : Char} {cs : List Char} (h : c ∈ stripMarkWs cs) :
    c ∈ cs := by
  unfold stripMarkWs at h
  split at h
  · split at h
    · exact List.mem_cons_of_mem _ ((List.dropWhile_sublist _).subset h)
    · exact h
  · exact h

theorem mem_trimCh {c : Char} {cs : List Char} (h : c ∈ trimCh cs) : c ∈ cs := by
  unfold trimCh at h
  rw [List.mem_reverse] at h
  have h2 := (List.dropWhile_sublist _).subset h
  rw [List.mem_reverse] at h2
  exact (List.dropWhile_sublist _).subset h2

theorem mem_stripRemotes {c : Char} {cs : List Char} (h : c ∈ stripRemotes cs) :
    c ∈ cs := by
  unfold stripRemotes at h
  split at h
  · exact List.drop_subset 15 cs h
  · exact h

theorem mem_cleanBranchLine {c : Char} {cs : List Char}
    (h : c ∈ cleanBranchLine cs) : c ∈ cs :=
  mem_stripStarWs (mem_trimCh (mem_stripMarkWs (mem_stripRemotes h)))

/-- Re-running the enumerator over a joined list of names that are
duplicate-free, non-empty, newline-free and stable under per-line
normalization reproduces exactly those names. -/
theorem second_pass (dd : List (List Char)) (hnd : dd.Nodup)
    (hne : ∀ p ∈ dd, p ≠ []) (hnonl : ∀ p ∈ dd, '\n' ∉ p)
    (hstab : ∀ p ∈ dd, cleanBranchLine p = p) :
    getExistingBranches (some (joinNl (dd.map (fun b => String.mk b)))) =
      dd.map (fun b => String.mk b) := by
  by_cases hdd : dd = []
  · subst hdd
    decide
  · obtain ⟨p, rest, rfl⟩ := List.exists_cons_of_ne_nil hdd
    have hdata : (joinNl ((p :: rest).map (fun b => String.mk b))).data =
        List.intercalate ['\n'] (p :: rest) := by
      show List.intercalate ['\n']
          (((p :: rest).map (fun b => String.mk b)).map String.data) = _
      rw [List.map_map]
      have hcomp : (String.data ∘ fun b : List Char => String.mk b) = id :=
        funext fun b => rfl
      rw [hcomp, List.map_id]
    have hs2ne : joinNl ((p :: rest).map (fun b => String.mk b)) ≠ "" := by
      intro hco
      have h2 : (joinNl ((p :: rest).map (fun b => String.mk b))).data = [] := by
        rw [hco]
      rw [hdata] at h2
      cases rest with
      | nil =>
        rw [intercalate_singleton_s] at h2
        exact hne p (List.mem_cons_self p []) h2
      | cons q rest2 =>
        rw [intercalate_cons2_s] at h2
        simp at h2
    have hred : getExistingBranches (some (joinNl ((p :: rest).map
        (fun b => String.mk b)))) =
        getExistingBranchesStr (joinNl ((p :: rest).map (fun b => String.mk b))) := by
      show (if joinNl ((p :: rest).map (fun b => String.mk b)) = "" then []
        else getExistingBranchesStr _) = _
      rw [if_neg hs2ne]
    rw [hred]
    unfold getExistingBranchesStr
    rw [hdata, splitCh_intercalate '\n' (p :: rest) (by simp) hnonl]
    have hclean : (p :: rest).map cleanBranchLine = p :: rest := by
      have hcg := List.map_congr_left (f := cleanBranchLine) (g := id) hstab
      rw [hcg, List.map_id]
    rw [hclean,
      List.filter_eq_self.mpr (fun x hx => by simpa using hne x hx),
      dedupGo_eq_self (p :: rest) [] hnd (fun x _ hco => (List.not_mem_nil x) hco)]

theorem firstPass_ne_nil (t : String) :
    ∀ p ∈ dedupGo [] (((splitCh '\n' t.data).map cleanBranchLine).filter
      (fun b => !b.isEmpty)), p ≠ [] := by
  intro p hp
  have hpf := dedupGo_subset _ [] p hp
  rw [List.mem_filter] at hpf
  simpa using hpf.2

theorem firstPass_no_newline (t : String) :
    ∀ p ∈ dedupGo [] (((splitCh '\n' t.data).map cleanBranchLine).filter
      (fun b => !b.isEmpty)), '\n' ∉ p := by
  intro p hp
  have hpf := dedupGo_subset _ [] p hp
  rw [List.mem_filter] at hpf
  obtain ⟨hmem, -⟩ := hpf
  rw [List.mem_map] at hmem
  obtain ⟨q, hq, rfl⟩ := hmem
  intro hco
  exact splitCh_no_sep '\n' t.data q hq (mem_cleanBranchLine hco)

theorem firstPass_stable (t : String) (ht : t ≠ "")
    (hst : ∀ b ∈ getExistingBranches (some t), cleanBranchLine b.data = b.data) :
    ∀ p ∈ dedupGo [] (((splitCh '\n' t.data).map cleanBranchLine).filter
      (fun b => !b.isEmpty)), cleanBranchLine p = p := by
  intro p hp
  have hb : String.mk p ∈ getExistingBranches (some t) := by
    have hred : getExistingBranches (some t) = getExistingBranchesStr t := by
      show (if t = "" then [] else getExistingBranchesStr t) = _
      rw [if_neg ht]
    rw [hred]
    exact List.mem_map_of_mem _ hp
  exact hst (String.mk p) hb

/-- C4 counterexample: a branch line carrying a doubled
`remotes/origin/` prefix survives the first pass with one prefix left,
which a second pass then strips — the enumerator is not idempotent on its
own output. -/
theorem c4_counterexample :
    getExistingBranches
        (some (joinNl (getExistingBranches (some "remotes/origin/remotes/origin/x")))) ≠
      getExistingBranches (some "remotes/origin/remotes/origin/x") := by
  decide

/-- C4 (amended).  The enumerator is idempotent on every input whose
first-pass output names are individually stable under the per-line
normalization (in particular this excludes names that still begin with
`remotes/origin/` or with a marker-plus-whitespace pattern after one
pass): feeding such output back through the enumerator reproduces it
exactly. -/
theorem c4_enumerator_idempotent_on_stable :
    ∀ t : String,
      (∀ b ∈ getExistingBranches (some t), cleanBranchLine b.data = b.data) →
      getExistingBranches (some (joinNl (getExistingBranches (some t)))) =
        getExistingBranches (some t) := by
  intro t hst
  by_cases ht : t = ""
  · subst ht
    decide
  · have hred : getExistingBranches (some t) = getExistingBranchesStr t := by
      show (if t = "" then [] else getExistingBranchesStr t) = _
      rw [if_neg ht]
    rw [hred]
    show getExistingBranches (some (joinNl ((dedupGo []
        (((splitCh '\n' t.data).map cleanBranchLine).filter
          (fun b => !b.isEmpty))).map (fun b => String.mk b)))) = _
    exact second_pass _ (dedupGo_nodup _ _) (firstPass_ne_nil t)
      (firstPass_no_newline t) (firstPass_stable t ht hst)

/-- Witness for C4 at a concrete stable input. -/
theorem c4_enumerator_idempotent_on_stable_witness :
    getExistingBranches (some (joinNl (getExistingBranches (some "* main\nfeature")))) =
      getExistingBranches (some "* main\nfeature") :=
  c4_enumerator_idempotent_on_stable "* main\nfeature" (by decide)
